import Mathlib

/-!
# pylibcoopgamma: `src/include-libcoopgamma.h`

The repository's only C source is a header that includes `<libcoopgamma.h>`
and defines seven object-like macros.  This development embeds the text of
that header, a small model of the C translation phases that matter for it
(comment removal, splitting into lines, recognition of preprocessing
directives, object-like macro replacement with rescanning), and proves the
properties of the resulting macro table.

Scope of the preprocessor model:
* trigraphs, line splicing, string literals and character constants are not
  modelled (the header has none);
* every punctuator is a single character (the header only uses `.`);
* the contents of `<libcoopgamma.h>` are external to the repository, so the
  macro table is the table of the macros this header itself defines;
* an invocation of a function-like macro is outside the model
  (`expand` answers `none` there); the header defines none.
-/

namespace CoopGamma

/-! ## The source text -/

/-- The 27 lines of `src/include-libcoopgamma.h`, verbatim. -/
def sourceLines : List String :=
  [ "/**",
    " * pylibcoopgamma -- Python library for interfacing with cooperative gamma servers",
    " * Copyright (C) 2016  Mattias Andrée (maandree@kth.se)",
    " * ",
    " * This library is free software: you can redistribute it and/or modify",
    " * it under the terms of the GNU General Public License as published by",
    " * the Free Software Foundation, either version 3 of the License, or",
    " * (at your option) any later version.",
    " * ",
    " * This library is distributed in the hope that it will be useful,",
    " * but WITHOUT ANY WARRANTY; without even the implied warranty of",
    " * MERCHANTABILITY or FITNESS FOR A PARTICULAR PURPOSE.  See the",
    " * GNU General Public License for more details.",
    " * ",
    " * You should have received a copy of the GNU General Public License",
    " * along with this library.  If not, see <http://www.gnu.org/licenses/>.",
    " */",
    "#include <libcoopgamma.h>",
    "",
    "",
    "#define fclass        class",
    "#define u_red_size    u8.red_size",
    "#define u_green_size  u8.green_size",
    "#define u_blue_size   u8.blue_size",
    "#define u_red         u8.red",
    "#define u_green       u8.green",
    "#define u_blue        u8.blue" ]

/-- The characters of the file: every line followed by a newline. -/
def sourceChars : List String → List Char
  | [] => []
  | l :: ls => l.toList ++ '\n' :: sourceChars ls

/-! ## Translation phase 3: comments, lines, preprocessing tokens -/

/-- Lexer state while removing comments. -/
inductive CommentState
  | code
  | block
  | line
  deriving DecidableEq, Repr

/-- Replace each `/* ... */` comment by one space and drop each `// ...`
comment up to (not including) its newline. -/
def stripComments : CommentState → List Char → List Char
  | _, [] => []
  | .code, '/' :: '*' :: cs => ' ' :: stripComments .block cs
  | .code, '/' :: '/' :: cs => stripComments .line cs
  | .code, c :: cs => c :: stripComments .code cs
  | .block, '*' :: '/' :: cs => stripComments .code cs
  | .block, _ :: cs => stripComments .block cs
  | .line, '\n' :: cs => '\n' :: stripComments .code cs
  | .line, _ :: cs => stripComments .line cs

/-- Split at newlines; `cur` is the current line, reversed. -/
def splitLines : List Char → List Char → List (List Char)
  | cur, [] => if cur = [] then [] else [cur.reverse]
  | cur, c :: cs =>
    if c = '\n' then cur.reverse :: splitLines [] cs else splitLines (c :: cur) cs

/-- A preprocessing token. -/
inductive Token
  | ident (name : String)
  | number (text : String)
  | punct (c : Char)
  deriving DecidableEq, Repr

def isBlank (c : Char) : Bool :=
  c = ' ' || c = '\t' || c = '\r' || c = '\x0b' || c = '\x0c'

def isDigit (c : Char) : Bool :=
  '0'.toNat ≤ c.toNat && c.toNat ≤ '9'.toNat

def isNondigit (c : Char) : Bool :=
  c = '_' || ('a'.toNat ≤ c.toNat && c.toNat ≤ 'z'.toNat)
    || ('A'.toNat ≤ c.toNat && c.toNat ≤ 'Z'.toNat)

def isWordChar (c : Char) : Bool :=
  isNondigit c || isDigit c

/-- The token made of the pending word `cur` (reversed), if any. -/
def flushWord (cur : List Char) : List Token :=
  match cur.reverse with
  | [] => []
  | c :: cs => if isDigit c then [.number (String.mk (c :: cs))] else [.ident (String.mk (c :: cs))]

/-- Tokens of one line; `cur` is the pending word, reversed. -/
def tokenize : List Char → List Char → List Token
  | cur, [] => flushWord cur
  | cur, c :: cs =>
    if isWordChar c then tokenize (c :: cur) cs
    else if isBlank c then flushWord cur ++ tokenize [] cs
    else flushWord cur ++ .punct c :: tokenize [] cs

def skipBlanks : List Char → List Char
  | [] => []
  | c :: cs => if isBlank c then skipBlanks cs else c :: cs

/-- The longest prefix of word characters, and the rest. -/
def spanWord : List Char → List Char × List Char
  | [] => ([], [])
  | c :: cs =>
    if isWordChar c then ((spanWord cs).1.cons c, (spanWord cs).2) else ([], c :: cs)

/-- The characters up to the first `stop`, and the rest after it. -/
def spanUntil (stop : Char) : List Char → List Char × List Char
  | [] => ([], [])
  | c :: cs =>
    if c = stop then ([], cs) else ((spanUntil stop cs).1.cons c, (spanUntil stop cs).2)

/-! ## Translation phase 4: directives -/

/-- A line of the translation unit after phase 3 (blank lines are dropped). -/
inductive Directive
  /-- `#include <name>` -/
  | includeSystem (name : String)
  /-- `#include "name"` -/
  | includeLocal (name : String)
  /-- `#define name body` -/
  | defineObject (name : String) (body : List Token)
  /-- `#define name(params) body`; the text after `(` is kept as tokens -/
  | defineFunction (name : String) (rest : List Token)
  /-- `#undef name` -/
  | undef (name : String)
  /-- `#if`, `#ifdef`, `#ifndef`, `#elif`, `#else`, `#endif` -/
  | conditional (keyword : String) (rest : List Token)
  /-- any other `#` line (`#pragma`, `#error`, `#line`, a null directive, ...) -/
  | other (rest : List Token)
  /-- a line that is no directive: C declarations or statements -/
  | text (tokens : List Token)
  deriving DecidableEq, Repr

def conditionalKeywords : List String :=
  ["if", "ifdef", "ifndef", "elif", "else", "endif"]

/-- The directive after `#define`: function-like exactly when `(` follows the
macro name with no blank in between. -/
def parseDefine (cs : List Char) : Directive :=
  match spanWord (skipBlanks cs) with
  | ([], rest) => .other (.ident "define" :: tokenize [] rest)
  | (n :: ns, '(' :: rest) =>
    if isDigit n then .other (.ident "define" :: tokenize [] (n :: ns ++ '(' :: rest))
    else .defineFunction (String.mk (n :: ns)) (tokenize [] rest)
  | (n :: ns, rest) =>
    if isDigit n then .other (.ident "define" :: tokenize [] (n :: ns ++ rest))
    else .defineObject (String.mk (n :: ns)) (tokenize [] rest)

/-- The directive after `#include`. -/
def parseInclude (cs : List Char) : Directive :=
  match skipBlanks cs with
  | '<' :: rest => .includeSystem (String.mk (spanUntil '>' rest).1)
  | '"' :: rest => .includeLocal (String.mk (spanUntil '"' rest).1)
  | rest => .other (.ident "include" :: tokenize [] rest)

/-- The directive after `#undef`. -/
def parseUndef (cs : List Char) : Directive :=
  match tokenize [] cs with
  | [.ident n] => .undef n
  | ts => .other (.ident "undef" :: ts)

/-- What follows the `#` of a directive line. -/
def parseDirective (cs : List Char) : Directive :=
  let w := spanWord (skipBlanks cs)
  let kw := String.mk w.1
  if kw = "define" then parseDefine w.2
  else if kw = "include" then parseInclude w.2
  else if kw = "undef" then parseUndef w.2
  else if kw ∈ conditionalKeywords then .conditional kw (tokenize [] w.2)
  else .other (tokenize [] (skipBlanks cs))

/-- One line after comment removal; `none` for a blank line. -/
def parseLine (cs : List Char) : Option Directive :=
  match skipBlanks cs with
  | [] => none
  | '#' :: rest => some (parseDirective rest)
  | c :: rest => some (.text (tokenize [] (c :: rest)))

/-- The directives and text lines of a source file. -/
def parseSource (lines : List String) : List Directive :=
  (splitLines [] (stripComments .code (sourceChars lines))).filterMap parseLine

/-- The header `src/include-libcoopgamma.h` as a list of directives. -/
def header : List Directive :=
  parseSource sourceLines

/-! ## Translation phase 4: the macro table and macro replacement -/

/-- The definition of a macro. -/
inductive MacroDef
  | object (body : List Token)
  | function (rest : List Token)
  deriving DecidableEq, Repr

/-- The replacement list of an object-like macro (none for a function-like one). -/
def MacroDef.body : MacroDef → List Token
  | .object body => body
  | .function _ => []

def MacroDef.isObject : MacroDef → Bool
  | .object _ => true
  | .function _ => false

/-- The macros in effect, most recent definition first. -/
abbrev MacroTable := List (String × MacroDef)

/-- The effect of one line on the macro table.  Conditional inclusion is not
evaluated: a definition counts wherever it stands. -/
def applyDirective (tbl : MacroTable) : Directive → MacroTable
  | .defineObject n body => (n, .object body) :: tbl
  | .defineFunction n rest => (n, .function rest) :: tbl
  | .undef n => tbl.filter (fun e => e.1 ≠ n)
  | _ => tbl

/-- The macro table after the last line of a file. -/
def macroTable (ds : List Directive) : MacroTable :=
  ds.foldl applyDirective []

/-- The definition in effect for `n`: the most recent one. -/
def lookupMacro : MacroTable → String → Option MacroDef
  | [], _ => none
  | (m, d) :: tbl, n => if n = m then some d else lookupMacro tbl n

/-- Concatenate the results, failing when one of them fails. -/
def concatResults : List (Option (List Token)) → Option (List Token)
  | [] => some []
  | none :: _ => none
  | some ts :: rs => (concatResults rs).map (fun us => ts ++ us)

/-- Replace one token and rescan its replacement.  `hide` holds the names of
the macros being replaced, which are not replaced again during rescanning;
`fuel` bounds the nesting of replacements. -/
def expandToken (tbl : MacroTable) : Nat → List String → Token → Option (List Token)
  | fuel, hide, .ident n =>
    if n ∈ hide then some [.ident n]
    else
      match lookupMacro tbl n with
      | none => some [.ident n]
      | some (.function _) => none
      | some (.object body) =>
        match fuel with
        | 0 => none
        | fuel + 1 => concatResults (body.map (expandToken tbl fuel (n :: hide)))
  | _, _, t => some [t]

/-- Macro replacement of a token sequence with nesting bounded by `fuel`. -/
def expandWith (tbl : MacroTable) (fuel : Nat) (ts : List Token) : Option (List Token) :=
  concatResults (ts.map (expandToken tbl fuel []))

/-- Macro replacement of a token sequence.  A nested replacement hides one
more name of the table, so the nesting never exceeds the table's length. -/
def expand (tbl : MacroTable) (ts : List Token) : Option (List Token) :=
  expandWith tbl tbl.length ts

/-- One pass over a token: the replacement list of an object-like macro name,
the token itself otherwise; nothing is rescanned. -/
def substituteToken (tbl : MacroTable) : Token → List Token
  | .ident n =>
    match lookupMacro tbl n with
    | some (.object body) => body
    | _ => [.ident n]
  | t => [t]

/-- One pass over a token sequence, without rescanning. -/
def substitute (tbl : MacroTable) : List Token → List Token
  | [] => []
  | t :: ts => substituteToken tbl t ++ substitute tbl ts

/-- The names the table defines, most recent first. -/
def macroNames (tbl : MacroTable) : List String :=
  tbl.map (fun e => e.1)

/-- All tokens of all replacement lists of the table. -/
def replacementTokens : MacroTable → List Token
  | [] => []
  | e :: tbl => e.2.body ++ replacementTokens tbl

/-- Whether a token is an identifier the table defines as a macro. -/
def isMacroName (tbl : MacroTable) : Token → Bool
  | .ident n => (lookupMacro tbl n).isSome
  | _ => false

/-- Whether a token sequence is the member access `obj . member` for some member. -/
def isMemberAccessOn (obj : String) : List Token → Bool
  | [.ident o, .punct '.', .ident _] => o = obj
  | _ => false

def Directive.isObjectDefine : Directive → Bool
  | .defineObject _ _ => true
  | _ => false

def Directive.isFunctionDefine : Directive → Bool
  | .defineFunction _ _ => true
  | _ => false

def Directive.isConditional : Directive → Bool
  | .conditional _ _ => true
  | _ => false

def Directive.isText : Directive → Bool
  | .text _ => true
  | _ => false

def Directive.isInclude : Directive → Bool
  | .includeSystem _ => true
  | .includeLocal _ => true
  | _ => false

/-- The macro table of `src/include-libcoopgamma.h`. -/
def headerTable : MacroTable :=
  macroTable header

/-- The names the `#define` lines of a file define, in the order of the file. -/
def definedNames : List Directive → List String
  | [] => []
  | .defineObject n _ :: ds => n :: definedNames ds
  | .defineFunction n _ :: ds => n :: definedNames ds
  | _ :: ds => definedNames ds

/-- Whether `p` is an initial segment of `cs`. -/
def startsWith : List Char → List Char → Bool
  | [], _ => true
  | _ :: _, [] => false
  | p :: ps, c :: cs => p = c && startsWith ps cs

/-- The identifiers the header turns into aliases, as the file lists them. -/
def aliasNames : List String :=
  ["fclass", "u_red_size", "u_green_size", "u_blue_size", "u_red", "u_green", "u_blue"]

/-- The identifiers the header's replacement lists are made of. -/
def underlyingNames : List String :=
  ["class", "u8", "red_size", "green_size", "blue_size", "red", "green", "blue"]

/-! ## Evaluation of the header -/

set_option maxRecDepth 1000000 in
/-- The directives the parser finds in the header's text. -/
theorem header_eq : header =
    [ .includeSystem "libcoopgamma.h",
      .defineObject "fclass" [.ident "class"],
      .defineObject "u_red_size" [.ident "u8", .punct '.', .ident "red_size"],
      .defineObject "u_green_size" [.ident "u8", .punct '.', .ident "green_size"],
      .defineObject "u_blue_size" [.ident "u8", .punct '.', .ident "blue_size"],
      .defineObject "u_red" [.ident "u8", .punct '.', .ident "red"],
      .defineObject "u_green" [.ident "u8", .punct '.', .ident "green"],
      .defineObject "u_blue" [.ident "u8", .punct '.', .ident "blue"] ] := by
  rfl

/-- The macro table of the header, most recent definition first. -/
theorem headerTable_eq : headerTable =
    [ ("u_blue", .object [.ident "u8", .punct '.', .ident "blue"]),
      ("u_green", .object [.ident "u8", .punct '.', .ident "green"]),
      ("u_red", .object [.ident "u8", .punct '.', .ident "red"]),
      ("u_blue_size", .object [.ident "u8", .punct '.', .ident "blue_size"]),
      ("u_green_size", .object [.ident "u8", .punct '.', .ident "green_size"]),
      ("u_red_size", .object [.ident "u8", .punct '.', .ident "red_size"]),
      ("fclass", .object [.ident "class"]) ] := by
  unfold headerTable
  rw [header_eq]
  rfl

theorem lookupMacro_header_none (n : String) (h : n ∉ aliasNames) :
    lookupMacro headerTable n = none := by
  simp only [aliasNames, List.mem_cons, List.mem_singleton, List.not_mem_nil, not_or,
    or_false] at h
  obtain ⟨h1, h2, h3, h4, h5, h6, h7⟩ := h
  rw [headerTable_eq]
  simp [lookupMacro, h1, h2, h3, h4, h5, h6, h7]

theorem expandToken_of_lookup_none (tbl : MacroTable) (fuel : Nat) (hide : List String)
    (n : String) (h : lookupMacro tbl n = none) :
    expandToken tbl fuel hide (.ident n) = some [.ident n] := by
  unfold expandToken
  split_ifs <;> simp [h]

theorem expandToken_object (tbl : MacroTable) (fuel : Nat) (n : String) (body : List Token)
    (h : lookupMacro tbl n = some (.object body)) :
    expandToken tbl (fuel + 1) [] (.ident n)
      = concatResults (body.map (expandToken tbl fuel [n])) := by
  rw [expandToken]
  simp [h]

theorem substituteToken_of_lookup_none (tbl : MacroTable) (n : String)
    (h : lookupMacro tbl n = none) :
    substituteToken tbl (.ident n) = [.ident n] := by
  simp [substituteToken, h]

theorem substituteToken_object (tbl : MacroTable) (n : String) (body : List Token)
    (h : lookupMacro tbl n = some (.object body)) :
    substituteToken tbl (.ident n) = body := by
  simp [substituteToken, h]

/-- The identifiers of the replacement lists are not macros of the header. -/
theorem lookupMacro_header_underlying (u : String) (h : u ∈ underlyingNames) :
    lookupMacro headerTable u = none := by
  apply lookupMacro_header_none
  simp only [underlyingNames, List.mem_cons, List.mem_singleton, List.not_mem_nil,
    or_false] at h
  rcases h with h | h | h | h | h | h | h | h <;> subst h <;> decide

/-- Every macro of the header is object-like, and its replacement list is
made of `.` and of identifiers that are not macros. -/
theorem lookupMacro_header_some (n : String) (h : n ∈ aliasNames) :
    ∃ body, lookupMacro headerTable n = some (.object body)
      ∧ ∀ t ∈ body, t = .punct '.' ∨ ∃ u ∈ underlyingNames, t = .ident u := by
  simp only [aliasNames, List.mem_cons, List.mem_singleton, List.not_mem_nil,
    or_false] at h
  rw [headerTable_eq]
  rcases h with h | h | h | h | h | h | h <;> subst h <;>
    simp [lookupMacro, underlyingNames]

theorem concatResults_map_fixed (f : Token → Option (List Token)) (ts : List Token)
    (h : ∀ t ∈ ts, f t = some [t]) : concatResults (ts.map f) = some ts := by
  induction ts with
  | nil => rfl
  | cons t ts ih =>
    have ht : f t = some [t] := h t (List.mem_cons_self t ts)
    have hts : concatResults (ts.map f) = some ts :=
      ih (fun u hu => h u (List.mem_cons_of_mem t hu))
    simp [List.map, concatResults, ht, hts]

theorem substitute_fixed (tbl : MacroTable) (ts : List Token)
    (h : ∀ t ∈ ts, substituteToken tbl t = [t]) : substitute tbl ts = ts := by
  induction ts with
  | nil => rfl
  | cons t ts ih =>
    have ht : substituteToken tbl t = [t] := h t (List.mem_cons_self t ts)
    have hts : substitute tbl ts = ts := ih (fun u hu => h u (List.mem_cons_of_mem t hu))
    simp [substitute, ht, hts]

theorem substitute_append (tbl : MacroTable) (ts us : List Token) :
    substitute tbl (ts ++ us) = substitute tbl ts ++ substitute tbl us := by
  induction ts with
  | nil => rfl
  | cons t ts ih => simp [substitute, ih]

/-- A token of a replacement list of the header is left alone by expansion. -/
theorem expandToken_header_fixed (fuel : Nat) (hide : List String) (t : Token)
    (ht : t = .punct '.' ∨ ∃ u ∈ underlyingNames, t = .ident u) :
    expandToken headerTable fuel hide t = some [t] := by
  rcases ht with ht | ⟨u, hu, ht⟩
  · subst ht
    unfold expandToken
    rfl
  · subst ht
    exact expandToken_of_lookup_none _ _ _ _ (lookupMacro_header_underlying u hu)

/-- A token of a replacement list of the header is left alone by substitution. -/
theorem substituteToken_header_fixed (t : Token)
    (ht : t = .punct '.' ∨ ∃ u ∈ underlyingNames, t = .ident u) :
    substituteToken headerTable t = [t] := by
  rcases ht with ht | ⟨u, hu, ht⟩
  · subst ht
    rfl
  · subst ht
    exact substituteToken_of_lookup_none _ _ (lookupMacro_header_underlying u hu)

/-- With the header's table, rescanning finds nothing to replace: one level
of nesting is enough and the result is the one-pass substitution. -/
theorem expandToken_header (fuel : Nat) (t : Token) :
    expandToken headerTable (fuel + 1) [] t = some (substituteToken headerTable t) := by
  cases t with
  | ident n =>
    by_cases h : n ∈ aliasNames
    · obtain ⟨body, hb, hfix⟩ := lookupMacro_header_some n h
      rw [expandToken_object _ _ _ _ hb, substituteToken_object _ _ _ hb]
      exact concatResults_map_fixed _ _
        (fun t ht => expandToken_header_fixed fuel [n] t (hfix t ht))
    · have hn := lookupMacro_header_none n h
      rw [expandToken_of_lookup_none _ _ _ _ hn, substituteToken_of_lookup_none _ _ hn]
  | number x =>
    unfold expandToken
    rfl
  | punct c =>
    unfold expandToken
    rfl

theorem substitute_substituteToken_header (t : Token) :
    substitute headerTable (substituteToken headerTable t) = substituteToken headerTable t := by
  cases t with
  | ident n =>
    by_cases h : n ∈ aliasNames
    · obtain ⟨body, hb, hfix⟩ := lookupMacro_header_some n h
      rw [substituteToken_object _ _ _ hb]
      exact substitute_fixed _ _ (fun t ht => substituteToken_header_fixed t (hfix t ht))
    · have hn := lookupMacro_header_none n h
      rw [substituteToken_of_lookup_none _ _ hn]
      simp [substitute, substituteToken_of_lookup_none _ _ hn]
  | number x => rfl
  | punct c => rfl

theorem expandWith_header (fuel : Nat) (ts : List Token) :
    expandWith headerTable (fuel + 1) ts = some (substitute headerTable ts) := by
  unfold expandWith
  induction ts with
  | nil => rfl
  | cons t ts ih => simp [List.map, concatResults, substitute, expandToken_header, ih]

theorem substitute_header_idem (ts : List Token) :
    substitute headerTable (substitute headerTable ts) = substitute headerTable ts := by
  induction ts with
  | nil => rfl
  | cons t ts ih =>
    simp [substitute, substitute_append, substitute_substituteToken_header, ih]

theorem headerTable_length : headerTable.length = 7 := by
  rw [headerTable_eq]
  rfl

theorem expand_header (ts : List Token) :
    expand headerTable ts = some (substitute headerTable ts) := by
  unfold expand
  rw [headerTable_length]
  exact expandWith_header 6 ts

/-! ## The fuel of `expand` is enough -/

theorem lookupMacro_mem (tbl : MacroTable) (n : String) (d : MacroDef)
    (h : lookupMacro tbl n = some d) : (n, d) ∈ tbl := by
  induction tbl with
  | nil => simp [lookupMacro] at h
  | cons e tbl ih =>
    obtain ⟨m, d'⟩ := e
    unfold lookupMacro at h
    split_ifs at h with hnm
    · simp only [Option.some.injEq] at h
      subst hnm h
      exact List.mem_cons_self _ _
    · exact List.mem_cons_of_mem _ (ih h)

theorem concatResults_isSome (rs : List (Option (List Token)))
    (h : ∀ r ∈ rs, r.isSome = true) : (concatResults rs).isSome = true := by
  induction rs with
  | nil => rfl
  | cons r rs ih =>
    have hr := h r (List.mem_cons_self r rs)
    have hrs := ih (fun x hx => h x (List.mem_cons_of_mem r hx))
    cases r with
    | none => simp at hr
    | some ts =>
      obtain ⟨us, hus⟩ := Option.isSome_iff_exists.mp hrs
      simp [concatResults, hus]

/-- With a table of object-like macros, replacement never runs out of fuel
when the fuel left and the names hidden so far make up the table's length. -/
theorem expandToken_isSome (tbl : MacroTable) (hobj : ∀ e ∈ tbl, e.2.isObject = true) :
    ∀ (fuel : Nat) (hide : List String) (t : Token), hide.Nodup → hide ⊆ macroNames tbl →
      tbl.length ≤ fuel + hide.length → (expandToken tbl fuel hide t).isSome = true := by
  intro fuel
  induction fuel with
  | zero =>
    intro hide t hnd hsub hlen
    cases t with
    | ident n =>
      unfold expandToken
      split_ifs with hmem
      · rfl
      · cases hl : lookupMacro tbl n with
        | none => rfl
        | some d =>
          exfalso
          have hin : n ∈ macroNames tbl :=
            List.mem_map.mpr ⟨(n, d), lookupMacro_mem tbl n d hl, rfl⟩
          have hnd2 : (n :: hide).Nodup := List.nodup_cons.mpr ⟨hmem, hnd⟩
          have hsub2 : n :: hide ⊆ macroNames tbl := List.cons_subset.mpr ⟨hin, hsub⟩
          have hle := (hnd2.subperm hsub2).length_le
          simp [macroNames] at hle
          omega
    | number x =>
      unfold expandToken
      rfl
    | punct c =>
      unfold expandToken
      rfl
  | succ fuel ih =>
    intro hide t hnd hsub hlen
    cases t with
    | ident n =>
      unfold expandToken
      split_ifs with hmem
      · rfl
      · cases hl : lookupMacro tbl n with
        | none => rfl
        | some d =>
          have hd := lookupMacro_mem tbl n d hl
          have hin : n ∈ macroNames tbl := List.mem_map.mpr ⟨(n, d), hd, rfl⟩
          have hnd2 : (n :: hide).Nodup := List.nodup_cons.mpr ⟨hmem, hnd⟩
          have hsub2 : n :: hide ⊆ macroNames tbl := List.cons_subset.mpr ⟨hin, hsub⟩
          cases d with
          | function rest =>
            have := hobj _ hd
            simp [MacroDef.isObject] at this
          | object body =>
            simp only
            apply concatResults_isSome
            intro r hr
            obtain ⟨u, _, hu⟩ := List.mem_map.mp hr
            rw [← hu]
            exact ih (n :: hide) u hnd2 hsub2 (by simp only [List.length_cons]; omega)
    | number x =>
      unfold expandToken
      rfl
    | punct c =>
      unfold expandToken
      rfl

/-- Macro replacement with a table of object-like macros always returns. -/
theorem expand_isSome (tbl : MacroTable) (hobj : ∀ e ∈ tbl, e.2.isObject = true)
    (ts : List Token) : (expand tbl ts).isSome = true := by
  unfold expand expandWith
  apply concatResults_isSome
  intro r hr
  obtain ⟨u, _, hu⟩ := List.mem_map.mp hr
  rw [← hu]
  exact expandToken_isSome tbl hobj tbl.length [] u List.nodup_nil (List.nil_subset _)
    (by simp)

/-! ## The claims -/

/-- C1: for each colour channel `c` among red, green and blue, expanding the
identifier `u_c_size` with the header's macro table gives exactly the tokens
`u8 . c_size`, and expanding `u_c` gives exactly `u8 . c`. -/
theorem channel_aliases_expand (c : String) (hc : c ∈ ["red", "green", "blue"]) :
    expand headerTable [.ident ("u_" ++ c ++ "_size")]
        = some [.ident "u8", .punct '.', .ident (c ++ "_size")]
      ∧ expand headerTable [.ident ("u_" ++ c)]
        = some [.ident "u8", .punct '.', .ident c] := by
  simp only [List.mem_cons, List.mem_singleton, List.not_mem_nil, or_false] at hc
  rw [expand_header, expand_header, headerTable_eq]
  rcases hc with hc | hc | hc <;> subst hc <;> exact ⟨rfl, rfl⟩

/-- The six channel aliases, one by one: `u_red_size` is `u8.red_size`,
`u_green_size` is `u8.green_size`, `u_blue_size` is `u8.blue_size`, `u_red` is
`u8.red`, `u_green` is `u8.green` and `u_blue` is `u8.blue`. -/
theorem channel_aliases_expand_witness :
    ("red" ∈ ["red", "green", "blue"] ∧ "green" ∈ ["red", "green", "blue"]
      ∧ "blue" ∈ ["red", "green", "blue"])
    ∧ (expand headerTable [.ident "u_red_size"]
          = some [.ident "u8", .punct '.', .ident "red_size"]
        ∧ expand headerTable [.ident "u_red"] = some [.ident "u8", .punct '.', .ident "red"])
    ∧ (expand headerTable [.ident "u_green_size"]
          = some [.ident "u8", .punct '.', .ident "green_size"]
        ∧ expand headerTable [.ident "u_green"]
          = some [.ident "u8", .punct '.', .ident "green"])
    ∧ (expand headerTable [.ident "u_blue_size"]
          = some [.ident "u8", .punct '.', .ident "blue_size"]
        ∧ expand headerTable [.ident "u_blue"]
          = some [.ident "u8", .punct '.', .ident "blue"]) :=
  ⟨⟨by decide, by decide, by decide⟩,
    channel_aliases_expand "red" (by decide),
    channel_aliases_expand "green" (by decide),
    channel_aliases_expand "blue" (by decide)⟩

/-- C2: expanding the identifier `fclass` with the header's macro table gives
exactly the single token `class`, and `fclass` is the only macro of the header
whose replacement list is not a member access on `u8`. -/
theorem fclass_expands_to_class :
    expand headerTable [.ident "fclass"] = some [.ident "class"]
      ∧ macroNames (headerTable.filter (fun e => !isMemberAccessOn "u8" e.2.body))
        = ["fclass"] := by
  rw [expand_header, headerTable_eq]
  exact ⟨rfl, by decide⟩

/-- The claim C3 as stated fails: the macro table of the header does not have
8 entries. -/
theorem macro_table_not_eight_entries : ¬ headerTable.length = 8 := by
  rw [headerTable_eq]
  decide

/-- C3, amended: the header has exactly 7 `#define` lines, and the macro table
it defines has exactly 7 entries. -/
theorem macro_table_seven_entries :
    (sourceLines.filter (fun l => startsWith "#define".toList l.toList)).length = 7
      ∧ (definedNames header).length = 7
      ∧ headerTable.length = 7 := by
  refine ⟨by decide, ?_, ?_⟩
  · rw [header_eq]
    rfl
  · rw [headerTable_eq]
    rfl

/-- C4: the header is exactly one `#include` of `<libcoopgamma.h>` followed
only by object-like `#define` lines: it has no conditional directive, no
function-like macro and no line of C declarations or statements. -/
theorem header_only_include_and_object_defines :
    header.head? = some (.includeSystem "libcoopgamma.h")
      ∧ header.tail.all Directive.isObjectDefine = true
      ∧ (header.filter Directive.isInclude).length = 1
      ∧ header.all (fun d => !d.isConditional && !d.isFunctionDefine && !d.isText) = true := by
  rw [header_eq]
  decide

/-- C5: no token of a replacement list of the header (these tokens are
`class`, `u8`, `.`, `red_size`, `green_size`, `blue_size`, `red`, `green`,
`blue`) is a macro name of the table; hence for every token sequence `s`
expansion returns the one-pass substitution `r` of `s`, already at nesting
depth one, and expanding `r` again returns `r`. -/
theorem expand_idempotent_one_pass :
    (∀ t, t ∈ replacementTokens headerTable ↔
        t ∈ [Token.ident "class", .ident "u8", .punct '.', .ident "red_size",
          .ident "green_size", .ident "blue_size", .ident "red", .ident "green",
          .ident "blue"])
      ∧ (replacementTokens headerTable).all (fun t => !isMacroName headerTable t) = true
      ∧ ∀ s : List Token, ∃ r,
          expand headerTable s = some r
            ∧ expand headerTable r = some r
            ∧ (expand headerTable s).bind (expand headerTable) = expand headerTable s
            ∧ r = substitute headerTable s
            ∧ ∀ fuel, expandWith headerTable (fuel + 1) s = some r := by
  refine ⟨?_, ?_, ?_⟩
  · intro t
    rw [headerTable_eq]
    simp only [replacementTokens, MacroDef.body, List.cons_append, List.nil_append,
      List.mem_cons, List.mem_singleton, List.not_mem_nil, or_false]
    tauto
  · rw [headerTable_eq]
    decide
  · intro s
    refine ⟨substitute headerTable s, expand_header s, ?_, ?_, rfl, ?_⟩
    · rw [expand_header, substitute_header_idem]
    · rw [expand_header, Option.some_bind, expand_header, substitute_header_idem]
    · intro fuel
      exact expandWith_header fuel s

/-- C6: the names the header defines are pairwise distinct (no name is defined
twice), and any two entries of its macro table differ both in their name and
in their replacement list. -/
theorem alias_table_injective :
    definedNames header
        = ["fclass", "u_red_size", "u_green_size", "u_blue_size", "u_red", "u_green",
          "u_blue"]
      ∧ (definedNames header).Nodup
      ∧ (macroNames headerTable).Nodup
      ∧ headerTable.Pairwise (fun a b => a.1 ≠ b.1 ∧ a.2.body ≠ b.2.body) := by
  rw [header_eq, headerTable_eq]
  refine ⟨rfl, ?_, ?_, ?_⟩
  · decide
  · decide
  · decide

/-- C7: an identifier that is none of `fclass`, `u_red_size`, `u_green_size`,
`u_blue_size`, `u_red`, `u_green`, `u_blue` expands to itself; in particular
`class`, `u8`, `red_size`, `green_size`, `blue_size`, `red`, `green` and `blue`
are not defined by the header and expand to themselves. -/
theorem expand_other_identifier (n : String)
    (h : n ∉ ["fclass", "u_red_size", "u_green_size", "u_blue_size", "u_red", "u_green",
      "u_blue"]) :
    (lookupMacro headerTable n = none ∧ expand headerTable [.ident n] = some [.ident n])
      ∧ ["class", "u8", "red_size", "green_size", "blue_size", "red", "green",
            "blue"].map (lookupMacro headerTable)
          = [none, none, none, none, none, none, none, none]
      ∧ ["class", "u8", "red_size", "green_size", "blue_size", "red", "green",
            "blue"].map (fun u => expand headerTable [.ident u])
          = [some [.ident "class"], some [.ident "u8"], some [.ident "red_size"],
            some [.ident "green_size"], some [.ident "blue_size"], some [.ident "red"],
            some [.ident "green"], some [.ident "blue"]] := by
  have hn : lookupMacro headerTable n = none := lookupMacro_header_none n h
  refine ⟨⟨hn, ?_⟩, ?_, ?_⟩
  · rw [expand_header]
    simp [substitute, substituteToken_of_lookup_none _ _ hn]
  · rw [headerTable_eq]
    decide
  · simp only [List.map, expand_header]
    rw [headerTable_eq]
    decide

/-- The identifier `u8` is not an alias, and expands to itself. -/
theorem expand_other_identifier_witness :
    "u8" ∉ ["fclass", "u_red_size", "u_green_size", "u_blue_size", "u_red", "u_green",
        "u_blue"]
      ∧ lookupMacro headerTable "u8" = none
      ∧ expand headerTable [.ident "u8"] = some [.ident "u8"] :=
  ⟨by decide, (expand_other_identifier "u8" (by decide)).1⟩

end CoopGamma
